import Mathlib

/-!
Verification of the gostl ordered tree map (package `treemap` backed by a
red-black tree engine).  The facade (`Map.Insert`, `Map.Get`, `Map.Erase`,
`Map.EraseIter`, `Map.Find`, `Map.LowerBound`, `Map.Size`, `Map.Traversal`)
is embedded from the source file; the tree engine it delegates to is not part
of the provided sources and is modelled from the specification (§4.1–§4.3).
Keys are taken from an arbitrary linear order, modelling the total-order
Comparator required by the spec; values are an arbitrary payload type.
-/

namespace Gostl

/-- Modelled from the spec: node colors of the red-black tree engine (§3). -/
inductive RBColor : Type
  | red
  | black
deriving DecidableEq, Repr

/-- Modelled from the spec: the tree's storage unit `{key, value, color, left,
right}` (§3).  Parent links are used in the imperative source only for
navigation and are represented here by structural recursion instead. -/
inductive RBNode (α β : Type) : Type
  | nil : RBNode α β
  | node (c : RBColor) (l : RBNode α β) (k : α) (v : β) (r : RBNode α β) : RBNode α β
deriving DecidableEq, Repr

namespace RBNode

variable {α β : Type}

/-- In-order sequence of key/value pairs stored in a tree. -/
def inorder : RBNode α β → List (α × β)
  | nil => []
  | node _ l k v r => inorder l ++ (k, v) :: inorder r

/-- The keys of a tree, in in-order. -/
def keys (t : RBNode α β) : List α := (inorder t).map Prod.fst

/-- Number of nodes in a tree. -/
def count : RBNode α β → Nat
  | nil => 0
  | node _ l _ _ r => count l + count r + 1

/-- The ordering invariant (§3 invariant 4): the in-order key sequence is
strictly increasing under the comparator. -/
def Ordered [LinearOrder α] (t : RBNode α β) : Prop :=
  (inorder t).Pairwise (fun p q => p.1 < q.1)

instance [LinearOrder α] (t : RBNode α β) : Decidable (Ordered t) :=
  inferInstanceAs (Decidable ((inorder t).Pairwise _))

/-- Modelled from the spec: `Search(key)` of the tree engine (§4.1): walk from
the root, move left if the argument is smaller, right if greater, stop on
equality; absent is `none`.  This is the engine's `FindNode`. -/
def findNode [LinearOrder α] : RBNode α β → α → Option (α × β)
  | nil, _ => none
  | node _ l k v r, q =>
    if q < k then findNode l q
    else if k < q then findNode r q
    else some (k, v)

/-- Modelled from the spec: `FindLowerBound(key)` (§4.1): a descent that
remembers the best candidate seen whenever the current node's key is ≥ the
argument (and then narrows left), narrowing right otherwise. -/
def findLowerBoundNode [LinearOrder α] : RBNode α β → α → Option (α × β) → Option (α × β)
  | nil, _, best => best
  | node _ l k v r, q, best =>
    if q ≤ k then findLowerBoundNode l q (some (k, v))
    else findLowerBoundNode r q best

/-- Replacing the value stored in the node with key `k` in place, leaving
every link and color untouched.  This is the tree-level effect of the
source's `node.SetValue(value)` applied to the node found by `FindNode`. -/
def setValue [LinearOrder α] : RBNode α β → α → β → RBNode α β
  | nil, _, _ => nil
  | node c l a b r, k, v =>
    if k < a then node c (setValue l k v) a b r
    else if a < k then node c l a b (setValue r k v)
    else node c l a v r

/-- Modelled from the spec: insert-fixup (§4.1), viewed at the grandparent
position on the way back up from the insertion point.  Uncle RED: recolor
parent and uncle BLACK and grandparent RED; uncle BLACK and the new node a
"triangle": rotate at the parent first; uncle BLACK and a "line": recolor
parent BLACK, grandparent RED and rotate at the grandparent. -/
def insFixup : RBColor → RBNode α β → α → β → RBNode α β → RBNode α β
  | .black, node .red (node .red a xk xv b) pk pv c, gk, gv, node .red u uk uv w =>
      node .red (node .black (node .red a xk xv b) pk pv c) gk gv (node .black u uk uv w)
  | .black, node .red a pk pv (node .red b xk xv c), gk, gv, node .red u uk uv w =>
      node .red (node .black a pk pv (node .red b xk xv c)) gk gv (node .black u uk uv w)
  | .black, node .red u uk uv w, gk, gv, node .red (node .red a xk xv b) pk pv c =>
      node .red (node .black u uk uv w) gk gv (node .black (node .red a xk xv b) pk pv c)
  | .black, node .red u uk uv w, gk, gv, node .red a pk pv (node .red b xk xv c) =>
      node .red (node .black u uk uv w) gk gv (node .black a pk pv (node .red b xk xv c))
  | .black, node .red (node .red a xk xv b) pk pv c, gk, gv, u =>
      node .black (node .red a xk xv b) pk pv (node .red c gk gv u)
  | .black, node .red a pk pv (node .red b yk yv c), gk, gv, u =>
      node .black (node .red a pk pv b) yk yv (node .red c gk gv u)
  | .black, u, gk, gv, node .red b pk pv (node .red c xk xv d) =>
      node .black (node .red u gk gv b) pk pv (node .red c xk xv d)
  | .black, u, gk, gv, node .red (node .red b yk yv c) pk pv d =>
      node .black (node .red u gk gv b) yk yv (node .red c pk pv d)
  | c, l, k, v, r => node c l k v r

/-- Modelled from the spec: the descent part of `Insert` (§4.1): attach a new
RED node at the leaf position found by comparison, and run the fixup at each
ancestor on the way back up.  The engine assumes the key is absent; on an
equal key it leaves the tree unchanged (the facade never reaches this case). -/
def ins [LinearOrder α] : RBNode α β → α → β → RBNode α β
  | nil, k, v => node .red nil k v nil
  | node c l a b r, k, v =>
    if k < a then insFixup c (ins l k v) a b r
    else if a < k then insFixup c l a b (ins r k v)
    else node c l a b r

/-- Modelled from the spec: recolor the root BLACK (§4.1, final step of both
fixups). -/
def setBlack : RBNode α β → RBNode α β
  | nil => nil
  | node _ l k v r => node .black l k v r

/-- Modelled from the spec: recolor the root RED (used by the delete-fixup
sibling recoloring, §4.1). -/
def setRed : RBNode α β → RBNode α β
  | nil => nil
  | node _ l k v r => node .red l k v r

/-- Modelled from the spec: `Insert(key, value)` of the engine (§4.1); the
root is recolored BLACK unconditionally at the end. -/
def insert [LinearOrder α] (t : RBNode α β) (k : α) (v : β) : RBNode α β :=
  setBlack (ins t k v)

/-- Modelled from the spec: rebalancing of a red-red violation in the left
child under a black parent (rotation and recoloring cases of the fixups,
§4.1). -/
def balanceL : RBNode α β → α → β → RBNode α β → RBNode α β
  | node .red (node .red a xk xv b) yk yv c, zk, zv, d =>
      node .red (node .black a xk xv b) yk yv (node .black c zk zv d)
  | node .red a xk xv (node .red b yk yv c), zk, zv, d =>
      node .red (node .black a xk xv b) yk yv (node .black c zk zv d)
  | a, k, v, b => node .black a k v b

/-- Modelled from the spec: rebalancing of a red-red violation in the right
child under a black parent (rotation and recoloring cases of the fixups,
§4.1). -/
def balanceR : RBNode α β → α → β → RBNode α β → RBNode α β
  | a, xk, xv, node .red b yk yv (node .red c zk zv d) =>
      node .red (node .black a xk xv b) yk yv (node .black c zk zv d)
  | a, xk, xv, node .red (node .red b yk yv c) zk zv d =>
      node .red (node .black a xk xv b) yk yv (node .black c zk zv d)
  | a, k, v, b => node .black a k v b

/-- Modelled from the spec: delete-fixup when the left subtree has lost one
black node (§4.1): a red deficient child is recolored BLACK; a BLACK sibling
is recolored RED and the red-red rebalancing applied; a RED sibling is first
rotated to make the sibling BLACK and the fixup continued below. -/
def balLeft : RBNode α β → α → β → RBNode α β → RBNode α β
  | node .red a xk xv b, k, v, r => node .red (node .black a xk xv b) k v r
  | l, k, v, node .black a yk yv b => balanceR l k v (node .red a yk yv b)
  | l, k, v, node .red (node .black a yk yv b) zk zv c =>
      node .red (node .black l k v a) yk yv (balanceR b zk zv (setRed c))
  | l, k, v, r => node .red l k v r

/-- Modelled from the spec: delete-fixup when the right subtree has lost one
black node (§4.1), mirror of `balLeft`. -/
def balRight : RBNode α β → α → β → RBNode α β → RBNode α β
  | l, k, v, node .red a xk xv b => node .red l k v (node .black a xk xv b)
  | node .black a yk yv b, k, v, r => balanceL (node .red a yk yv b) k v r
  | node .red a xk xv (node .black b yk yv c), k, v, r =>
      node .red (balanceL (setRed a) xk xv b) yk yv (node .black c k v r)
  | l, k, v, r => node .red l k v r

/-- Whether the root of the tree is a BLACK node (a nil tree is not; the
rebalancing dispatch below only repairs after deleting inside a subtree whose
root was a black node). -/
def isBlackNode : RBNode α β → Bool
  | node .black _ _ _ _ => true
  | _ => false

/-- Modelled from the spec: splice out the leftmost node — the in-order
successor used by two-child deletion (§4.1) — returning its key/value pair
and the rebalanced remainder (`none` on an empty tree). -/
def delMin : RBNode α β → Option ((α × β) × RBNode α β)
  | nil => none
  | node _ l k v r =>
    match delMin l with
    | none => some ((k, v), r)
    | some (p, m) =>
      if isBlackNode l then some (p, balLeft m k v r)
      else some (p, node .red m k v r)

/-- Modelled from the spec: `Delete` descent (§4.1).  A node with two
children has its key/value replaced by its in-order successor (the minimum of
the right subtree) and the successor node is deleted instead; a node with at
most one child is spliced out, its child linked into its place; whenever a
BLACK node was removed from a subtree the delete-fixup is run at the parent. -/
def del [LinearOrder α] (q : α) : RBNode α β → RBNode α β
  | nil => nil
  | node _ l k v r =>
    if q < k then
      if isBlackNode l then balLeft (del q l) k v r
      else node .red (del q l) k v r
    else if k < q then
      if isBlackNode r then balRight l k v (del q r)
      else node .red l k v (del q r)
    else
      match delMin r with
      | none => l
      | some ((sk, sv), m) =>
        if isBlackNode r then balRight l sk sv m
        else node .red l sk sv m

/-- Modelled from the spec: `Delete(node)` of the engine by the node's key
(§4.1); the root is recolored BLACK unconditionally at the end. -/
def erase [LinearOrder α] (q : α) (t : RBNode α β) : RBNode α β :=
  setBlack (del q t)

/-- Modelled from the spec: the callback-driven full in-order walk (§4.3).
Returns the key/value pairs the visitor was invoked on, in order, together
with whether the walk ran to exhaustion (`false` if the visitor stopped it). -/
def traversal : RBNode α β → (α → β → Bool) → List (α × β) × Bool
  | nil, _ => ([], true)
  | node _ l k v r, f =>
    match traversal l f with
    | (xs, false) => (xs, false)
    | (xs, true) =>
      if f k v then
        match traversal r f with
        | (ys, b) => (xs ++ (k, v) :: ys, b)
      else (xs ++ [(k, v)], false)

end RBNode

/-- Modelled from the spec: the tree engine owns the root and a size counter
(§3: `size` is the count of live nodes; §4.1: `Insert` increments it and
`Delete` decrements it). -/
structure RbTree (α β : Type) where
  root : RBNode α β
  size : Nat
deriving DecidableEq

namespace RbTree

variable {α β : Type} [LinearOrder α]

/-- Modelled from the spec: a fresh, empty engine. -/
def new : RbTree α β := ⟨RBNode.nil, 0⟩

/-- Modelled from the spec: `Search(key) -> NodeRef?` (§6); a node reference
is represented by the referenced key/value pair. -/
def FindNode (t : RbTree α β) (k : α) : Option (α × β) :=
  t.root.findNode k

/-- Modelled from the spec: `Insert(key, value)` (assumes the key absent) —
inserts with rebalancing and increments the size counter (§4.1). -/
def Insert (t : RbTree α β) (k : α) (v : β) : RbTree α β :=
  ⟨t.root.insert k v, t.size + 1⟩

/-- Modelled from the spec: `Delete(NodeRef)` (§4.1, §6) — removes the
referenced node with rebalancing and decrements the size counter.  An absent
reference (the nil pointer) is modelled as a no-op. -/
def Delete (t : RbTree α β) (n : Option (α × β)) : RbTree α β :=
  match n with
  | some p => ⟨RBNode.erase p.1 t.root, t.size - 1⟩
  | none => t

/-- Modelled from the spec: `FindLowerBound(key) -> NodeRef?` (§4.1, §6). -/
def FindLowerBoundNode (t : RbTree α β) (k : α) : Option (α × β) :=
  t.root.findLowerBoundNode k none

/-- Modelled from the spec: `Size() -> integer` (§6), the stored counter. -/
def Size (t : RbTree α β) : Nat := t.size

/-- Modelled from the spec: `Clear()` (§4.1) — detaches the root and resets
the size counter to 0. -/
def Clear (_t : RbTree α β) : RbTree α β := ⟨RBNode.nil, 0⟩

/-- Modelled from the spec: `Traverse(visitor)` (§4.3, §6). -/
def Traversal (t : RbTree α β) (f : α → β → Bool) : List (α × β) × Bool :=
  t.root.traversal f

end RbTree

/-- The facade `Map` from the source: wraps the tree engine.  The locker field
is the no-op `FakeLocker` by default and every method brackets a single engine
call with acquire/release, which has no observable effect in a sequential
model and is omitted. -/
structure Map (α β : Type) where
  tree : RbTree α β
deriving DecidableEq

/-- The facade `MapIterator` from the source: a cursor wrapping a possibly
absent node reference. -/
structure MapIterator (α β : Type) where
  node : Option (α × β)
deriving DecidableEq

/-- The source's `iter.IsValid()`: a `MapIterator` is valid while its node
reference is present. -/
def MapIterator.IsValid {α β : Type} (it : MapIterator α β) : Bool :=
  it.node.isSome

/-- The dynamic type of a value of the source's `iterator.ConstKvIterator`
inteface as seen by `EraseIter`'s type assertion: either a `*MapIterator`, or
an iterator of any other dynamic type. -/
inductive ConstKvIterator (α β : Type) : Type
  | mp (it : MapIterator α β) : ConstKvIterator α β
  | foreign : ConstKvIterator α β

namespace Map

variable {α β : Type} [LinearOrder α]

/-- The source's `New()`: a map over a fresh, empty tree. -/
def New : Map α β := ⟨RbTree.new⟩

/-- The source's `Map.Insert` (lines 63–73): if `FindNode` finds a node for
the key, set that node's value in place and return; otherwise delegate to the
engine's `Insert`. -/
def Insert (m : Map α β) (key : α) (value : β) : Map α β :=
  match m.tree.FindNode key with
  | some _ => ⟨⟨m.tree.root.setValue key value, m.tree.size⟩⟩
  | none => ⟨m.tree.Insert key value⟩

/-- The source's `Map.Get` (lines 76–85): the found node's value, or nil
(`none`) if not found. -/
def Get (m : Map α β) (key : α) : Option β :=
  match m.tree.FindNode key with
  | some n => some n.2
  | none => none

/-- The source's `Map.Erase` (lines 88–96): find the node by key and delete
it if present; otherwise do nothing. -/
def Erase (m : Map α β) (key : α) : Map α β :=
  match m.tree.FindNode key with
  | some n => ⟨m.tree.Delete (some n)⟩
  | none => m

/-- The source's `Map.EraseIter` (lines 99–107): a type assertion guards the
call — only when the iterator's dynamic type is `*MapIterator` is its node
passed to the engine's `Delete`. -/
def EraseIter (m : Map α β) (iter : ConstKvIterator α β) : Map α β :=
  match iter with
  | .mp it => ⟨m.tree.Delete it.node⟩
  | .foreign => m

/-- The source's `Map.Find` (lines 110–116): an iterator wrapping the found
node, invalid (absent node) when the key is not present. -/
def Find (m : Map α β) (key : α) : MapIterator α β :=
  ⟨m.tree.FindNode key⟩

/-- The source's `Map.LowerBound` (lines 119–125): an iterator wrapping the
engine's lower-bound node. -/
def LowerBound (m : Map α β) (key : α) : MapIterator α β :=
  ⟨m.tree.FindLowerBoundNode key⟩

/-- The source's `Map.Clear` (lines 152–157). -/
def Clear (m : Map α β) : Map α β := ⟨m.tree.Clear⟩

/-- The source's `Map.Contains` (lines 160–168). -/
def Contains (m : Map α β) (key : α) : Bool :=
  (m.tree.FindNode key).isSome

/-- The source's `Map.Size` (lines 171–176). -/
def Size (m : Map α β) : Nat := m.tree.Size

/-- The source's `Map.Traversal` (lines 179–184): delegates to the engine's
visitor walk. -/
def Traversal (m : Map α β) (f : α → β → Bool) : List (α × β) × Bool :=
  m.tree.Traversal f

end Map

/-- A facade mutation: one `Insert` or one `Erase` call. -/
inductive MapOp (α β : Type) : Type
  | ins (key : α) (value : β) : MapOp α β
  | ers (key : α) : MapOp α β

/-- Applying one facade mutation. -/
def applyOp {α β : Type} [LinearOrder α] (m : Map α β) : MapOp α β → Map α β
  | .ins k v => m.Insert k v
  | .ers k => m.Erase k

/-- Running a sequence of facade mutations against a fresh map. -/
def runOps {α β : Type} [LinearOrder α] (ops : List (MapOp α β)) : Map α β :=
  ops.foldl applyOp Map.New

/-- The map states reachable through the facade's constructors and mutators. -/
inductive Reachable {α β : Type} [LinearOrder α] : Map α β → Prop
  | new : Reachable Map.New
  | insert {m : Map α β} (k : α) (v : β) : Reachable m → Reachable (m.Insert k v)
  | erase {m : Map α β} (k : α) : Reachable m → Reachable (m.Erase k)
  | clear {m : Map α β} : Reachable m → Reachable m.Clear

/-! Specification-side list operations.  The in-order contents of a tree form
an association list sorted strictly by key; the tree operations are related to
the corresponding list operations below. -/

/-- The keys of an association list. -/
def keysOf {α β : Type} (xs : List (α × β)) : List α := xs.map Prod.fst

/-- Insertion into a key-sorted association list at the ordered position
(an already-present key leaves the list unchanged, matching the engine's
key-absent assumption). -/
def listIns {α β : Type} [LinearOrder α] (k : α) (v : β) : List (α × β) → List (α × β)
  | [] => [(k, v)]
  | p :: xs =>
    if k < p.1 then (k, v) :: p :: xs
    else if p.1 < k then p :: listIns k v xs
    else p :: xs

/-- Removal of the first pair with the given key from an association list. -/
def removeKey {α β : Type} [DecidableEq α] (k : α) : List (α × β) → List (α × β)
  | [] => []
  | p :: xs => if p.1 = k then xs else p :: removeKey k xs

/-- Pointwise value update: rewrites the pair with key `k` to `(k, v)` and
leaves every other pair unchanged. -/
def updVal {α β : Type} [DecidableEq α] (k : α) (v : β) (p : α × β) : α × β :=
  if p.1 = k then (k, v) else p

/-- The facade invariant: the tree satisfies the ordering invariant and the
stored size counter equals the number of stored pairs. -/
def MapInv {α β : Type} [LinearOrder α] (m : Map α β) : Prop :=
  m.tree.root.Ordered ∧ m.tree.size = m.tree.root.inorder.length

/-- The spec's concrete scenario (§8): keys `[5,3,8,1,4,7,9]` inserted in that
order into a fresh map (each key mapped to itself as its payload). -/
def scenarioMap : Map Int Int :=
  [5, 3, 8, 1, 4, 7, 9].foldl (fun m k => m.Insert k k) Map.New

section ListLemmas

variable {α β : Type}

theorem not_mem_keysOf {xs : List (α × β)} {q : α}
    (h : ∀ p ∈ xs, p.1 ≠ q) : q ∉ keysOf xs := by
  intro hq
  rcases List.mem_map.mp hq with ⟨p, hp, he⟩
  exact h p hp he

theorem mem_keysOf {xs : List (α × β)} {q : α} (hq : q ∈ keysOf xs) :
    ∃ w, (q, w) ∈ xs := by
  rcases List.mem_map.mp hq with ⟨p, hp, he⟩
  refine ⟨p.2, ?_⟩
  rw [← he]
  exact hp

theorem mem_keysOf_of_mem {xs : List (α × β)} {p : α × β} (hp : p ∈ xs) :
    p.1 ∈ keysOf xs :=
  List.mem_map_of_mem Prod.fst hp

theorem not_mem_keysOf_cons {p : α × β} {xs : List (α × β)} {k : α}
    (h : k ∉ keysOf (p :: xs)) : p.1 ≠ k ∧ k ∉ keysOf xs := by
  simp only [keysOf, List.map_cons, List.mem_cons, not_or] at h
  exact ⟨fun he => h.1 he.symm, h.2⟩

theorem listIns_append_left [LinearOrder α] (k : α) (v : β) (a : α) (b : β)
    (xs ys : List (α × β)) (h : k < a) :
    listIns k v (xs ++ (a, b) :: ys) = listIns k v xs ++ (a, b) :: ys := by
  induction xs with
  | nil => simp [listIns, h]
  | cons p xs ih =>
    by_cases h1 : k < p.1
    · simp [listIns, h1]
    · by_cases h2 : p.1 < k
      · simp [listIns, h1, h2, ih]
      · simp [listIns, h1, h2]

theorem listIns_append_right [LinearOrder α] (k : α) (v : β) (a : α) (b : β)
    (xs ys : List (α × β)) (hxs : ∀ p ∈ xs, p.1 < k) (h : a < k) :
    listIns k v (xs ++ (a, b) :: ys) = xs ++ (a, b) :: listIns k v ys := by
  induction xs with
  | nil => simp [listIns, lt_asymm h, h]
  | cons p xs ih =>
    have hp : p.1 < k := hxs p (List.mem_cons_self p xs)
    have ih2 := ih (fun q hq => hxs q (List.mem_cons_of_mem p hq))
    simp [listIns, lt_asymm hp, hp, ih2]

theorem listIns_append_eq [LinearOrder α] (k : α) (v : β) (b : β)
    (xs ys : List (α × β)) (hxs : ∀ p ∈ xs, p.1 < k) :
    listIns k v (xs ++ (k, b) :: ys) = xs ++ (k, b) :: ys := by
  induction xs with
  | nil => simp [listIns]
  | cons p xs ih =>
    have hp : p.1 < k := hxs p (List.mem_cons_self p xs)
    have ih2 := ih (fun q hq => hxs q (List.mem_cons_of_mem p hq))
    simp [listIns, lt_asymm hp, hp, ih2]

theorem mem_listIns [LinearOrder α] {k : α} {v : β} {q : α × β} {xs : List (α × β)}
    (h : q ∈ listIns k v xs) : q = (k, v) ∨ q ∈ xs := by
  induction xs with
  | nil =>
    simp only [listIns, List.mem_singleton] at h
    exact Or.inl h
  | cons p xs ih =>
    by_cases h1 : k < p.1
    · simp only [listIns, if_pos h1] at h
      rcases List.mem_cons.mp h with rfl | h2
      · exact Or.inl rfl
      · exact Or.inr h2
    · by_cases h2 : p.1 < k
      · simp only [listIns, if_neg h1, if_pos h2] at h
        rcases List.mem_cons.mp h with rfl | h3
        · exact Or.inr (List.mem_cons_self _ _)
        · rcases ih h3 with h4 | h4
          · exact Or.inl h4
          · exact Or.inr (List.mem_cons_of_mem _ h4)
      · simp only [listIns, if_neg h1, if_neg h2] at h
        exact Or.inr h

theorem pairwise_listIns [LinearOrder α] (k : α) (v : β) {xs : List (α × β)}
    (h : xs.Pairwise (fun p q => p.1 < q.1)) :
    (listIns k v xs).Pairwise (fun p q => p.1 < q.1) := by
  induction xs with
  | nil => simp [listIns]
  | cons p xs ih =>
    rw [List.pairwise_cons] at h
    obtain ⟨hp, hxs⟩ := h
    by_cases h1 : k < p.1
    · simp only [listIns, if_pos h1]
      refine List.Pairwise.cons ?_ (List.Pairwise.cons hp hxs)
      intro q hq
      rcases List.mem_cons.mp hq with rfl | hq
      · exact h1
      · exact lt_trans h1 (hp q hq)
    · by_cases h2 : p.1 < k
      · simp only [listIns, if_neg h1, if_pos h2]
        refine List.Pairwise.cons ?_ (ih hxs)
        intro q hq
        rcases mem_listIns hq with rfl | hq
        · exact h2
        · exact hp q hq
      · simp only [listIns, if_neg h1, if_neg h2]
        exact List.Pairwise.cons hp hxs

theorem self_mem_listIns [LinearOrder α] (k : α) (v : β) {xs : List (α × β)}
    (h : k ∉ keysOf xs) : (k, v) ∈ listIns k v xs := by
  induction xs with
  | nil => simp [listIns]
  | cons p xs ih =>
    obtain ⟨hne, h2⟩ := not_mem_keysOf_cons h
    rcases lt_trichotomy k p.1 with h1 | h1 | h1
    · simp [listIns, h1]
    · exact absurd h1.symm hne
    · simp only [listIns, if_neg (lt_asymm h1), if_pos h1]
      exact List.mem_cons_of_mem p (ih h2)

theorem length_listIns [LinearOrder α] (k : α) (v : β) {xs : List (α × β)}
    (h : k ∉ keysOf xs) : (listIns k v xs).length = xs.length + 1 := by
  induction xs with
  | nil => simp [listIns]
  | cons p xs ih =>
    obtain ⟨hne, h2⟩ := not_mem_keysOf_cons h
    rcases lt_trichotomy k p.1 with h1 | h1 | h1
    · simp [listIns, h1]
    · exact absurd h1.symm hne
    · simp [listIns, lt_asymm h1, h1, ih h2]

theorem removeKey_eq_self [DecidableEq α] {k : α} {xs : List (α × β)}
    (h : k ∉ keysOf xs) : removeKey k xs = xs := by
  induction xs with
  | nil => rfl
  | cons p xs ih =>
    obtain ⟨hne, h2⟩ := not_mem_keysOf_cons h
    simp [removeKey, hne, ih h2]

theorem removeKey_append_right [DecidableEq α] {k : α} (xs ys : List (α × β))
    (h : k ∉ keysOf xs) : removeKey k (xs ++ ys) = xs ++ removeKey k ys := by
  induction xs with
  | nil => rfl
  | cons p xs ih =>
    obtain ⟨hne, h2⟩ := not_mem_keysOf_cons h
    simp [removeKey, hne, ih h2]

theorem removeKey_append_left [DecidableEq α] {k : α} (xs ys : List (α × β))
    (h : k ∉ keysOf ys) : removeKey k (xs ++ ys) = removeKey k xs ++ ys := by
  induction xs with
  | nil => simpa [removeKey] using removeKey_eq_self h
  | cons p xs ih =>
    by_cases hp : p.1 = k
    · simp [removeKey, hp]
    · simp [removeKey, hp, ih]

theorem removeKey_sublist [DecidableEq α] (k : α) (xs : List (α × β)) :
    (removeKey k xs).Sublist xs := by
  induction xs with
  | nil => simp [removeKey]
  | cons p xs ih =>
    by_cases hp : p.1 = k
    · simp only [removeKey, if_pos hp]
      exact List.sublist_cons_self p xs
    · simp only [removeKey, if_neg hp]
      exact List.Sublist.cons₂ p ih

theorem length_removeKey [DecidableEq α] {k : α} {xs : List (α × β)}
    (h : k ∈ keysOf xs) : (removeKey k xs).length + 1 = xs.length := by
  induction xs with
  | nil => simp [keysOf] at h
  | cons p xs ih =>
    by_cases hp : p.1 = k
    · simp [removeKey, hp]
    · have h2 : k ∈ keysOf xs := by
        rcases List.mem_map.mp h with ⟨q, hq, he⟩
        rcases List.mem_cons.mp hq with rfl | hq2
        · exact absurd he hp
        · exact List.mem_map.mpr ⟨q, hq2, he⟩
      simp [removeKey, hp, ih h2]

theorem not_mem_keysOf_removeKey [LinearOrder α] {k : α} {xs : List (α × β)}
    (hs : xs.Pairwise (fun p q => p.1 < q.1)) : k ∉ keysOf (removeKey k xs) := by
  induction xs with
  | nil => simp [removeKey, keysOf]
  | cons p xs ih =>
    rw [List.pairwise_cons] at hs
    obtain ⟨hp, hs⟩ := hs
    by_cases hpk : p.1 = k
    · simp only [removeKey, if_pos hpk]
      exact not_mem_keysOf fun q hq => hpk ▸ ne_of_gt (hp q hq)
    · simp only [removeKey, if_neg hpk, keysOf, List.map_cons, List.mem_cons]
      intro hcon
      rcases hcon with he | hmem
      · exact hpk he.symm
      · exact ih hs hmem

theorem fst_updVal [DecidableEq α] (k : α) (v : β) (p : α × β) : (updVal k v p).1 = p.1 := by
  unfold updVal
  split
  · next h => exact h.symm
  · rfl

theorem map_updVal_id [DecidableEq α] {k : α} (v : β) {xs : List (α × β)}
    (h : k ∉ keysOf xs) : xs.map (updVal k v) = xs := by
  induction xs with
  | nil => rfl
  | cons p xs ih =>
    obtain ⟨hne, h2⟩ := not_mem_keysOf_cons h
    simp [updVal, hne, ih h2]

theorem mem_map_updVal [DecidableEq α] {k : α} {v w : β} {xs : List (α × β)}
    (h : (k, w) ∈ xs) : (k, v) ∈ xs.map (updVal k v) := by
  have he : updVal k v (k, w) = (k, v) := by simp [updVal]
  exact he ▸ List.mem_map_of_mem (updVal k v) h

theorem keysOf_map_updVal [DecidableEq α] (k : α) (v : β) (xs : List (α × β)) :
    keysOf (xs.map (updVal k v)) = keysOf xs := by
  have hf : Prod.fst ∘ updVal k v = (Prod.fst : α × β → α) :=
    funext fun p => fst_updVal k v p
  simp [keysOf, List.map_map, hf]

theorem pairwise_map_updVal [LinearOrder α] (k : α) (v : β) {xs : List (α × β)}
    (h : xs.Pairwise (fun p q => p.1 < q.1)) :
    (xs.map (updVal k v)).Pairwise (fun p q => p.1 < q.1) := by
  rw [List.pairwise_map]
  simpa [fst_updVal] using h

theorem find?_min_of_pairwise [LinearOrder α] {q : α} {xs : List (α × β)} {p x : α × β}
    (hs : xs.Pairwise (fun p1 p2 => p1.1 < p2.1))
    (hf : xs.find? (fun p1 => decide (q ≤ p1.1)) = some p)
    (hx : x ∈ xs) (hq : q ≤ x.1) : p.1 ≤ x.1 := by
  induction xs with
  | nil => simp at hf
  | cons a xs ih =>
    rw [List.pairwise_cons] at hs
    obtain ⟨ha, hs⟩ := hs
    by_cases h1 : q ≤ a.1
    · have hfa : (a :: xs).find? (fun p1 => decide (q ≤ p1.1)) = some a := by
        simp [List.find?, h1]
      rw [hfa] at hf
      injection hf with hf
      subst hf
      rcases List.mem_cons.mp hx with rfl | hx2
      · exact le_refl _
      · exact le_of_lt (ha x hx2)
    · have hfa : (a :: xs).find? (fun p1 => decide (q ≤ p1.1))
          = xs.find? (fun p1 => decide (q ≤ p1.1)) := by
        simp [List.find?, h1]
      rw [hfa] at hf
      rcases List.mem_cons.mp hx with rfl | hx2
      · exact absurd hq h1
      · exact ih hs hf hx2

end ListLemmas

section TreeLemmas

variable {α β : Type}

theorem inorder_setBlack (t : RBNode α β) : t.setBlack.inorder = t.inorder := by
  cases t <;> simp [RBNode.setBlack, RBNode.inorder]

theorem inorder_setRed (t : RBNode α β) : t.setRed.inorder = t.inorder := by
  cases t <;> simp [RBNode.setRed, RBNode.inorder]

theorem inorder_insFixup (c : RBColor) (l : RBNode α β) (k : α) (v : β) (r : RBNode α β) :
    (RBNode.insFixup c l k v r).inorder = l.inorder ++ (k, v) :: r.inorder := by
  unfold RBNode.insFixup
  split <;> simp [RBNode.inorder]

theorem inorder_balanceL (l : RBNode α β) (k : α) (v : β) (r : RBNode α β) :
    (RBNode.balanceL l k v r).inorder = l.inorder ++ (k, v) :: r.inorder := by
  unfold RBNode.balanceL
  split <;> simp [RBNode.inorder]

theorem inorder_balanceR (l : RBNode α β) (k : α) (v : β) (r : RBNode α β) :
    (RBNode.balanceR l k v r).inorder = l.inorder ++ (k, v) :: r.inorder := by
  unfold RBNode.balanceR
  split <;> simp [RBNode.inorder]

theorem inorder_balLeft (l : RBNode α β) (k : α) (v : β) (r : RBNode α β) :
    (RBNode.balLeft l k v r).inorder = l.inorder ++ (k, v) :: r.inorder := by
  unfold RBNode.balLeft
  split <;> simp [RBNode.inorder, inorder_balanceR, inorder_setRed]

theorem inorder_balRight (l : RBNode α β) (k : α) (v : β) (r : RBNode α β) :
    (RBNode.balRight l k v r).inorder = l.inorder ++ (k, v) :: r.inorder := by
  unfold RBNode.balRight
  split <;> simp [RBNode.inorder, inorder_balanceL, inorder_setRed]

theorem count_eq_length_inorder (t : RBNode α β) : t.count = t.inorder.length := by
  induction t with
  | nil => rfl
  | node c l k v r ihl ihr => simp [RBNode.count, RBNode.inorder, ihl, ihr]; omega

theorem keysOf_inorder (t : RBNode α β) : keysOf t.inorder = t.keys := rfl

theorem ordered_node_iff [LinearOrder α] {c : RBColor} {l r : RBNode α β} {k : α} {v : β} :
    (RBNode.node c l k v r).Ordered ↔
      l.Ordered ∧ r.Ordered ∧ (∀ p ∈ l.inorder, p.1 < k) ∧ (∀ p ∈ r.inorder, k < p.1) := by
  show (l.inorder ++ (k, v) :: r.inorder).Pairwise _ ↔ _
  rw [List.pairwise_append, List.pairwise_cons]
  constructor
  · rintro ⟨h1, ⟨h2, h3⟩, h4⟩
    exact ⟨h1, h3, fun p hp => h4 p hp (k, v) (List.mem_cons_self _ _), h2⟩
  · rintro ⟨h1, h2, h3, h4⟩
    refine ⟨h1, ⟨h4, h2⟩, ?_⟩
    intro a ha b hb
    rcases List.mem_cons.mp hb with rfl | hb
    · exact h3 a ha
    · exact lt_trans (h3 a ha) (h4 b hb)

theorem ordered_nil [LinearOrder α] : (RBNode.nil : RBNode α β).Ordered :=
  List.Pairwise.nil

theorem findNode_some [LinearOrder α] {t : RBNode α β} {q : α} {p : α × β}
    (h : t.findNode q = some p) : p.1 = q ∧ p ∈ t.inorder := by
  induction t with
  | nil => simp [RBNode.findNode] at h
  | node c l k v r ihl ihr =>
    rw [RBNode.findNode] at h
    by_cases h1 : q < k
    · rw [if_pos h1] at h
      obtain ⟨he, hm⟩ := ihl h
      refine ⟨he, ?_⟩
      simp only [RBNode.inorder, List.mem_append]
      exact Or.inl hm
    · rw [if_neg h1] at h
      by_cases h2 : k < q
      · rw [if_pos h2] at h
        obtain ⟨he, hm⟩ := ihr h
        refine ⟨he, ?_⟩
        simp only [RBNode.inorder, List.mem_append, List.mem_cons]
        exact Or.inr (Or.inr hm)
      · rw [if_neg h2] at h
        injection h with h
        subst h
        refine ⟨le_antisymm (le_of_not_lt h1) (le_of_not_lt h2), ?_⟩
        simp [RBNode.inorder]

theorem findNode_of_mem [LinearOrder α] {t : RBNode α β} {q : α} {w : β}
    (ho : t.Ordered) (h : (q, w) ∈ t.inorder) : t.findNode q = some (q, w) := by
  induction t with
  | nil => simp [RBNode.inorder] at h
  | node c l k v r ihl ihr =>
    rw [ordered_node_iff] at ho
    obtain ⟨hol, hor, hbl, hbr⟩ := ho
    rw [RBNode.inorder] at h
    rw [RBNode.findNode]
    rcases List.mem_append.mp h with hl | hrest
    · have hq : q < k := hbl (q, w) hl
      rw [if_pos hq]
      exact ihl hol hl
    · rcases List.mem_cons.mp hrest with heq | hr
      · rw [Prod.mk.injEq] at heq
        obtain ⟨h1, h2⟩ := heq
        subst h1
        subst h2
        rw [if_neg (lt_irrefl q), if_neg (lt_irrefl q)]
      · have hq : k < q := hbr (q, w) hr
        rw [if_neg (lt_asymm hq), if_pos hq]
        exact ihr hor hr

theorem findNode_eq_none [LinearOrder α] {t : RBNode α β} {q : α}
    (h : q ∉ t.keys) : t.findNode q = none := by
  cases hf : t.findNode q with
  | none => rfl
  | some p =>
    obtain ⟨he, hm⟩ := findNode_some hf
    exact absurd (he ▸ mem_keysOf_of_mem hm) h

theorem inorder_ins [LinearOrder α] {t : RBNode α β} (k : α) (v : β) (ho : t.Ordered) :
    (t.ins k v).inorder = listIns k v t.inorder := by
  induction t with
  | nil => simp [RBNode.ins, RBNode.inorder, listIns]
  | node c l a b r ihl ihr =>
    rw [ordered_node_iff] at ho
    obtain ⟨hol, hor, hbl, hbr⟩ := ho
    rw [RBNode.ins]
    rcases lt_trichotomy k a with h1 | h1 | h1
    · rw [if_pos h1, inorder_insFixup, ihl hol]
      show _ = listIns k v (l.inorder ++ (a, b) :: r.inorder)
      rw [listIns_append_left k v a b l.inorder r.inorder h1]
    · subst h1
      rw [if_neg (lt_irrefl k), if_neg (lt_irrefl k)]
      show (RBNode.node c l k b r).inorder = listIns k v (l.inorder ++ (k, b) :: r.inorder)
      rw [listIns_append_eq k v b l.inorder r.inorder hbl, RBNode.inorder]
    · rw [if_neg (lt_asymm h1), if_pos h1, inorder_insFixup, ihr hor]
      show _ = listIns k v (l.inorder ++ (a, b) :: r.inorder)
      rw [listIns_append_right k v a b l.inorder r.inorder
        (fun p hp => lt_trans (hbl p hp) h1) h1]

theorem inorder_insert [LinearOrder α] {t : RBNode α β} (k : α) (v : β) (ho : t.Ordered) :
    (t.insert k v).inorder = listIns k v t.inorder := by
  rw [RBNode.insert, inorder_setBlack, inorder_ins k v ho]

theorem ordered_insert [LinearOrder α] {t : RBNode α β} (k : α) (v : β) (ho : t.Ordered) :
    (t.insert k v).Ordered := by
  show (t.insert k v).inorder.Pairwise _
  rw [inorder_insert k v ho]
  exact pairwise_listIns k v ho

theorem inorder_setValue [LinearOrder α] {t : RBNode α β} (k : α) (v : β) (ho : t.Ordered) :
    (t.setValue k v).inorder = t.inorder.map (updVal k v) := by
  induction t with
  | nil => simp [RBNode.setValue, RBNode.inorder]
  | node c l a b r ihl ihr =>
    rw [ordered_node_iff] at ho
    obtain ⟨hol, hor, hbl, hbr⟩ := ho
    rw [RBNode.setValue]
    rcases lt_trichotomy k a with h1 | h1 | h1
    · rw [if_pos h1]
      have hnr : k ∉ keysOf r.inorder :=
        not_mem_keysOf fun p hp => ne_of_gt (lt_trans h1 (hbr p hp))
      have hna : updVal k v (a, b) = (a, b) := by
        simp [updVal, ne_of_gt h1]
      simp [RBNode.inorder, ihl hol, hna, map_updVal_id v hnr]
    · subst h1
      rw [if_neg (lt_irrefl k), if_neg (lt_irrefl k)]
      have hnl : k ∉ keysOf l.inorder :=
        not_mem_keysOf fun p hp => ne_of_lt (hbl p hp)
      have hnr : k ∉ keysOf r.inorder :=
        not_mem_keysOf fun p hp => ne_of_gt (hbr p hp)
      have hna : updVal k v (k, b) = (k, v) := by simp [updVal]
      simp [RBNode.inorder, hna, map_updVal_id v hnl, map_updVal_id v hnr]
    · rw [if_neg (lt_asymm h1), if_pos h1]
      have hnl : k ∉ keysOf l.inorder :=
        not_mem_keysOf fun p hp => ne_of_lt (lt_trans (hbl p hp) h1)
      have hna : updVal k v (a, b) = (a, b) := by
        simp [updVal, ne_of_lt h1]
      simp [RBNode.inorder, ihr hor, hna, map_updVal_id v hnl]

theorem delMin_eq_none {t : RBNode α β} (h : t.delMin = none) : t = RBNode.nil := by
  cases t with
  | nil => rfl
  | node c l k v r =>
    rw [RBNode.delMin] at h
    split at h
    · simp at h
    · split at h <;> simp at h

theorem inorder_delMin {t : RBNode α β} {p : α × β} {t2 : RBNode α β}
    (h : t.delMin = some (p, t2)) : t.inorder = p :: t2.inorder := by
  induction t generalizing p t2 with
  | nil => simp [RBNode.delMin] at h
  | node c l k v r ihl ihr =>
    rw [RBNode.delMin] at h
    split at h
    · next heq =>
      have hnil := delMin_eq_none heq
      subst hnil
      simp only [Option.some.injEq, Prod.mk.injEq] at h
      obtain ⟨h1, h2⟩ := h
      subst h1
      subst h2
      simp [RBNode.inorder]
    · next pq l2 heq =>
      have hil := ihl heq
      split at h <;>
        (simp only [Option.some.injEq, Prod.mk.injEq] at h
         obtain ⟨h1, h2⟩ := h
         subst h1
         subst h2)
      · rw [RBNode.inorder, hil, inorder_balLeft]
        simp
      · rw [RBNode.inorder, hil]
        simp [RBNode.inorder]

theorem inorder_del [LinearOrder α] {t : RBNode α β} (q : α) (ho : t.Ordered) :
    (RBNode.del q t).inorder = removeKey q t.inorder := by
  induction t with
  | nil => simp [RBNode.del, RBNode.inorder, removeKey]
  | node c l k v r ihl ihr =>
    rw [ordered_node_iff] at ho
    obtain ⟨hol, hor, hbl, hbr⟩ := ho
    rw [RBNode.del]
    rcases lt_trichotomy q k with h1 | h1 | h1
    · rw [if_pos h1]
      have hnr : q ∉ keysOf ((k, v) :: r.inorder) := by
        apply not_mem_keysOf
        intro p hp
        rcases List.mem_cons.mp hp with rfl | hp2
        · exact ne_of_gt h1
        · exact ne_of_gt (lt_trans h1 (hbr p hp2))
      show _ = removeKey q (l.inorder ++ (k, v) :: r.inorder)
      rw [removeKey_append_left l.inorder ((k, v) :: r.inorder) hnr]
      split <;> simp [inorder_balLeft, RBNode.inorder, ihl hol]
    · subst h1
      rw [if_neg (lt_irrefl q), if_neg (lt_irrefl q)]
      have hnl : q ∉ keysOf l.inorder :=
        not_mem_keysOf fun p hp => ne_of_lt (hbl p hp)
      show _ = removeKey q (l.inorder ++ (q, v) :: r.inorder)
      rw [removeKey_append_right l.inorder ((q, v) :: r.inorder) hnl]
      have hhead : removeKey q ((q, v) :: r.inorder) = r.inorder := by
        simp [removeKey]
      rw [hhead]
      split
      · next heq =>
        have hnil := delMin_eq_none heq
        subst hnil
        simp [RBNode.inorder]
      · next sk sv m heq =>
        have hir := inorder_delMin heq
        split <;> simp [inorder_balRight, RBNode.inorder, hir]
    · rw [if_neg (lt_asymm h1), if_pos h1]
      have hnl : q ∉ keysOf l.inorder :=
        not_mem_keysOf fun p hp => ne_of_lt (lt_trans (hbl p hp) h1)
      show _ = removeKey q (l.inorder ++ (k, v) :: r.inorder)
      rw [removeKey_append_right l.inorder ((k, v) :: r.inorder) hnl]
      have hhead : removeKey q ((k, v) :: r.inorder) = (k, v) :: removeKey q r.inorder := by
        simp [removeKey, ne_of_lt h1]
      rw [hhead]
      split <;> simp [inorder_balRight, RBNode.inorder, ihr hor]

theorem inorder_erase [LinearOrder α] {t : RBNode α β} (q : α) (ho : t.Ordered) :
    (RBNode.erase q t).inorder = removeKey q t.inorder := by
  rw [RBNode.erase, inorder_setBlack, inorder_del q ho]

theorem ordered_erase [LinearOrder α] {t : RBNode α β} (q : α) (ho : t.Ordered) :
    (RBNode.erase q t).Ordered := by
  show (RBNode.erase q t).inorder.Pairwise _
  rw [inorder_erase q ho]
  exact List.Pairwise.sublist (removeKey_sublist q t.inorder) ho

theorem traversal_true (t : RBNode α β) :
    t.traversal (fun _ _ => true) = (t.inorder, true) := by
  induction t with
  | nil => rfl
  | node c l k v r ihl ihr =>
    rw [RBNode.traversal, ihl, ihr]
    simp [RBNode.inorder]

theorem findLowerBoundNode_eq [LinearOrder α] {t : RBNode α β} (q : α) (ho : t.Ordered)
    (best : Option (α × β)) :
    t.findLowerBoundNode q best
      = (t.inorder.find? (fun p => decide (q ≤ p.1))).or best := by
  induction t generalizing best with
  | nil => simp [RBNode.findLowerBoundNode, RBNode.inorder]
  | node c l k v r ihl ihr =>
    rw [ordered_node_iff] at ho
    obtain ⟨hol, hor, hbl, hbr⟩ := ho
    rw [RBNode.findLowerBoundNode]
    show _ = ((l.inorder ++ (k, v) :: r.inorder).find? (fun p => decide (q ≤ p.1))).or best
    rw [List.find?_append]
    by_cases h1 : q ≤ k
    · rw [if_pos h1, ihl hol]
      have hc : ((k, v) :: r.inorder).find? (fun p => decide (q ≤ p.1)) = some (k, v) := by
        simp [List.find?, h1]
      rw [hc]
      cases l.inorder.find? (fun p => decide (q ≤ p.1)) <;> rfl
    · rw [if_neg h1, ihr hor]
      have hl0 : l.inorder.find? (fun p => decide (q ≤ p.1)) = none := by
        rw [List.find?_eq_none]
        intro p hp
        simp only [decide_eq_true_eq]
        exact not_le_of_lt (lt_trans (hbl p hp) (lt_of_not_le h1))
      have hc : ((k, v) :: r.inorder).find? (fun p => decide (q ≤ p.1))
          = r.inorder.find? (fun p => decide (q ≤ p.1)) := by
        simp [List.find?, h1]
      rw [hl0, hc]
      rfl

end TreeLemmas

section MapLemmas

variable {α β : Type} [LinearOrder α]

theorem insert_present {m : Map α β} {k : α} {w : β} (v : β)
    (ho : m.tree.root.Ordered) (hw : (k, w) ∈ m.tree.root.inorder) :
    (m.Insert k v).tree.root.inorder = m.tree.root.inorder.map (updVal k v)
      ∧ (m.Insert k v).tree.size = m.tree.size := by
  have hf : m.tree.FindNode k = some (k, w) := findNode_of_mem ho hw
  constructor
  · simp only [Map.Insert, hf]
    exact inorder_setValue k v ho
  · simp [Map.Insert, hf]

theorem insert_absent {m : Map α β} (k : α) (v : β)
    (hk : k ∉ m.tree.root.keys) :
    m.Insert k v = ⟨⟨m.tree.root.insert k v, m.tree.size + 1⟩⟩ := by
  have hf : m.tree.FindNode k = none := findNode_eq_none hk
  simp only [Map.Insert, hf, RbTree.Insert]

theorem erase_present {m : Map α β} {k : α} {w : β}
    (ho : m.tree.root.Ordered) (hw : (k, w) ∈ m.tree.root.inorder) :
    m.Erase k = ⟨⟨RBNode.erase k m.tree.root, m.tree.size - 1⟩⟩ := by
  have hf : m.tree.FindNode k = some (k, w) := findNode_of_mem ho hw
  simp only [Map.Erase, hf, RbTree.Delete]

theorem erase_absent {m : Map α β} {k : α} (hk : k ∉ m.tree.root.keys) :
    m.Erase k = m := by
  have hf : m.tree.FindNode k = none := findNode_eq_none hk
  simp only [Map.Erase, hf]

theorem get_eq_some_of_mem {m : Map α β} {k : α} {w : β}
    (ho : m.tree.root.Ordered) (h : (k, w) ∈ m.tree.root.inorder) :
    m.Get k = some w := by
  have hf : m.tree.FindNode k = some (k, w) := findNode_of_mem ho h
  simp [Map.Get, hf]

theorem get_eq_none_of_not_mem {m : Map α β} {k : α}
    (h : k ∉ m.tree.root.keys) : m.Get k = none := by
  have hf : m.tree.FindNode k = none := findNode_eq_none h
  simp [Map.Get, hf]

theorem mapInv_new : MapInv (Map.New : Map α β) :=
  ⟨ordered_nil, rfl⟩

theorem mapInv_insert {m : Map α β} (k : α) (v : β) (h : MapInv m) :
    MapInv (m.Insert k v) := by
  obtain ⟨ho, hs⟩ := h
  by_cases hk : k ∈ m.tree.root.keys
  · rcases mem_keysOf hk with ⟨w, hw⟩
    obtain ⟨hi, hsz⟩ := insert_present v ho hw
    constructor
    · show (m.Insert k v).tree.root.inorder.Pairwise _
      rw [hi]
      exact pairwise_map_updVal k v ho
    · rw [hsz, hi, List.length_map, hs]
  · rw [insert_absent k v hk]
    constructor
    · exact ordered_insert k v ho
    · show m.tree.size + 1 = (m.tree.root.insert k v).inorder.length
      rw [inorder_insert k v ho, length_listIns k v hk, hs]

theorem mapInv_erase {m : Map α β} (k : α) (h : MapInv m) :
    MapInv (m.Erase k) := by
  obtain ⟨ho, hs⟩ := h
  by_cases hk : k ∈ m.tree.root.keys
  · rcases mem_keysOf hk with ⟨w, hw⟩
    rw [erase_present ho hw]
    constructor
    · exact ordered_erase k ho
    · show m.tree.size - 1 = (RBNode.erase k m.tree.root).inorder.length
      rw [inorder_erase k ho]
      have hl := length_removeKey hk
      omega
  · rw [erase_absent hk]
    exact ⟨ho, hs⟩

theorem mapInv_clear {m : Map α β} : MapInv m.Clear :=
  ⟨ordered_nil, rfl⟩

theorem reachable_mapInv {m : Map α β} (h : Reachable m) : MapInv m := by
  induction h with
  | new => exact mapInv_new
  | insert k v _ ih => exact mapInv_insert k v ih
  | erase k _ ih => exact mapInv_erase k ih
  | clear _ _ => exact mapInv_clear

theorem mapInv_foldl (ops : List (MapOp α β)) {m : Map α β} (h : MapInv m) :
    MapInv (ops.foldl applyOp m) := by
  induction ops generalizing m with
  | nil => exact h
  | cons op ops ih =>
    rw [List.foldl_cons]
    apply ih
    cases op with
    | ins k v => exact mapInv_insert k v h
    | ers k => exact mapInv_erase k h

theorem mapInv_runOps (ops : List (MapOp α β)) : MapInv (runOps ops) :=
  mapInv_foldl ops mapInv_new

end MapLemmas

theorem map_traversal_true {α β : Type} (m : Map α β) :
    m.Traversal (fun _ _ => true) = (m.tree.root.inorder, true) :=
  traversal_true m.tree.root

/-- C1: for every map state satisfying the ordering invariant in which key `k`
is already present with some value `w`, calling `Insert(k, v)` replaces the
stored value of `k`'s existing node with `v` in place: the stored contents
are exactly the old ones with the pair at `k` rewritten to `(k, v)`, no
second node for `k` is created and no node is allocated at all (node count
and the size counter are unchanged), and no error is signalled (the
operation is total and returns the updated map). -/
theorem C1_insert_present_updates_in_place {α β : Type} [LinearOrder α]
    (m : Map α β) (k : α) (v w : β)
    (ho : m.tree.root.Ordered) (hw : (k, w) ∈ m.tree.root.inorder) :
    (m.Insert k v).tree.root.inorder = m.tree.root.inorder.map (updVal k v)
      ∧ (m.Insert k v).tree.root.count = m.tree.root.count
      ∧ (m.Insert k v).Size = m.Size := by
  obtain ⟨hi, hsz⟩ := insert_present v ho hw
  refine ⟨hi, ?_, hsz⟩
  rw [count_eq_length_inorder, count_eq_length_inorder, hi, List.length_map]

theorem C1_witness :
    (((Map.New : Map Int Int).Insert 1 10).Insert 1 5).tree.root.inorder
        = ((Map.New : Map Int Int).Insert 1 10).tree.root.inorder.map (updVal 1 5)
      ∧ (((Map.New : Map Int Int).Insert 1 10).Insert 1 5).tree.root.count
        = ((Map.New : Map Int Int).Insert 1 10).tree.root.count
      ∧ (((Map.New : Map Int Int).Insert 1 10).Insert 1 5).Size
        = ((Map.New : Map Int Int).Insert 1 10).Size :=
  C1_insert_present_updates_in_place ((Map.New : Map Int Int).Insert 1 10) 1 5 10
    (by decide) (by decide)

/-- C2: for every map state satisfying the ordering invariant and every key
`k` and value `v`: after `Insert(k, v)`, `Get(k)` returns `v`; and after then
erasing `k`'s node by key with `Erase(k)`, `Get(k)` returns the absent result
(nil, modelled as `none`). -/
theorem C2_insert_get_erase_roundtrip {α β : Type} [LinearOrder α]
    (m : Map α β) (k : α) (v : β) (ho : m.tree.root.Ordered) :
    (m.Insert k v).Get k = some v ∧ ((m.Insert k v).Erase k).Get k = none := by
  have hmain : (m.Insert k v).tree.root.Ordered
      ∧ (k, v) ∈ (m.Insert k v).tree.root.inorder := by
    by_cases hk : k ∈ m.tree.root.keys
    · rcases mem_keysOf hk with ⟨w, hw⟩
      obtain ⟨hi, _⟩ := insert_present v ho hw
      constructor
      · show (m.Insert k v).tree.root.inorder.Pairwise _
        rw [hi]
        exact pairwise_map_updVal k v ho
      · rw [hi]
        exact mem_map_updVal hw
    · rw [insert_absent k v hk]
      constructor
      · exact ordered_insert k v ho
      · show (k, v) ∈ (m.tree.root.insert k v).inorder
        rw [inorder_insert k v ho]
        exact self_mem_listIns k v hk
  obtain ⟨ho1, hm1⟩ := hmain
  refine ⟨get_eq_some_of_mem ho1 hm1, ?_⟩
  have he := erase_present ho1 hm1
  have hno : k ∉ ((m.Insert k v).Erase k).tree.root.keys := by
    rw [he]
    show k ∉ keysOf (RBNode.erase k (m.Insert k v).tree.root).inorder
    rw [inorder_erase k ho1]
    exact not_mem_keysOf_removeKey ho1
  exact get_eq_none_of_not_mem hno

theorem C2_witness :
    ((Map.New : Map Int Int).Insert 4 7).Get 4 = some 7
      ∧ (((Map.New : Map Int Int).Insert 4 7).Erase 4).Get 4 = none :=
  C2_insert_get_erase_roundtrip (Map.New : Map Int Int) 4 7 (by decide)

/-- C3: for every map state satisfying the ordering invariant (its present
keys are strictly increasing under the comparator) and every query key `q`,
`LowerBound(q)` returns an iterator at the smallest present key ≥ `q` — its
node is a stored pair whose key is ≥ `q` and is minimal among all present
keys ≥ `q` — and the iterator's node is absent exactly when `q` is greater
than every present key. -/
theorem C3_lower_bound_correct {α β : Type} [LinearOrder α]
    (m : Map α β) (q : α) (ho : m.tree.root.Ordered) :
    ((m.LowerBound q).node = none ↔ ∀ x ∈ m.tree.root.keys, x < q)
      ∧ ∀ p, (m.LowerBound q).node = some p →
          p ∈ m.tree.root.inorder ∧ q ≤ p.1
            ∧ ∀ x ∈ m.tree.root.keys, q ≤ x → p.1 ≤ x := by
  have hlb : (m.LowerBound q).node
      = m.tree.root.inorder.find? (fun p => decide (q ≤ p.1)) := by
    show m.tree.root.findLowerBoundNode q none = _
    rw [findLowerBoundNode_eq q ho none]
    cases m.tree.root.inorder.find? (fun p => decide (q ≤ p.1)) <;> rfl
  constructor
  · rw [hlb, List.find?_eq_none]
    constructor
    · intro h x hx
      rcases mem_keysOf hx with ⟨w, hw⟩
      have h2 := h (x, w) hw
      simp only [decide_eq_true_eq] at h2
      exact lt_of_not_le h2
    · intro h p hp
      simp only [decide_eq_true_eq]
      exact not_le_of_lt (h p.1 (mem_keysOf_of_mem hp))
  · intro p hp
    rw [hlb] at hp
    have hmem := List.mem_of_find?_eq_some hp
    have hpred := List.find?_some hp
    simp only [decide_eq_true_eq] at hpred
    refine ⟨hmem, hpred, ?_⟩
    intro x hx hqx
    rcases mem_keysOf hx with ⟨w, hw⟩
    exact find?_min_of_pairwise ho hp hw hqx

theorem C3_witness :
    ((((Map.New : Map Int Int).Insert 3 0).LowerBound 2).node = none
        ↔ ∀ x ∈ ((Map.New : Map Int Int).Insert 3 0).tree.root.keys, x < 2)
      ∧ ∀ p, (((Map.New : Map Int Int).Insert 3 0).LowerBound 2).node = some p →
          p ∈ ((Map.New : Map Int Int).Insert 3 0).tree.root.inorder ∧ 2 ≤ p.1
            ∧ ∀ x ∈ ((Map.New : Map Int Int).Insert 3 0).tree.root.keys,
                2 ≤ x → p.1 ≤ x :=
  C3_lower_bound_correct ((Map.New : Map Int Int).Insert 3 0) 2 (by decide)

/-- C4: for every sequence of `Insert` and `Erase` operations applied to a
fresh map, the full in-order `Traversal` of the resulting map visits keys in
strictly increasing order under the comparator (no key repeated, no
inversion). -/
theorem C4_traversal_strictly_increasing {α β : Type} [LinearOrder α]
    (ops : List (MapOp α β)) :
    ((((runOps ops).Traversal (fun _ _ => true)).1).map Prod.fst).Pairwise (· < ·) := by
  have h := mapInv_runOps ops
  simp only [map_traversal_true]
  rw [List.pairwise_map]
  exact h.1

/-- C5: for every map state reachable through the facade, `Size()` equals the
number of key/value pairs visited by a full `Traversal` of that map. -/
theorem C5_size_eq_traversal_count {α β : Type} [LinearOrder α]
    (m : Map α β) (h : Reachable m) :
    m.Size = ((m.Traversal (fun _ _ => true)).1).length := by
  obtain ⟨_, hs⟩ := reachable_mapInv h
  simp only [map_traversal_true]
  exact hs

theorem C5_witness :
    (((Map.New : Map Int Int).Insert 2 5).Erase 2).Size
      = (((((Map.New : Map Int Int).Insert 2 5).Erase 2).Traversal
          (fun _ _ => true)).1).length :=
  C5_size_eq_traversal_count (((Map.New : Map Int Int).Insert 2 5).Erase 2)
    (Reachable.erase 2 (Reachable.insert 2 5 Reachable.new))

/-- C6: starting from an empty map, inserting keys `[5,3,8,1,4,7,9]` in that
order yields in-order traversal keys `[1,3,4,5,7,8,9]`; after then erasing
key `5` the traversal keys are `[1,3,4,7,8,9]`; and `LowerBound(6)` on that
map returns the node with key `7`. -/
theorem C6_concrete_scenario :
    ((scenarioMap.Traversal (fun _ _ => true)).1).map Prod.fst = [1, 3, 4, 5, 7, 8, 9]
      ∧ (((scenarioMap.Erase 5).Traversal (fun _ _ => true)).1).map Prod.fst
          = [1, 3, 4, 7, 8, 9]
      ∧ ((scenarioMap.Erase 5).LowerBound 6).node.map Prod.fst = some 7 := by
  decide

/-- C7: for every map state and every key `k` not present in it, the lookup
operations signal the miss by returning an absent result — `Get(k)` returns
nil (`none`) and `Find(k)` returns an invalid iterator wrapping an absent
node — and never abort or panic (both operations are total functions). -/
theorem C7_absent_key_lookups_return_absent {α β : Type} [LinearOrder α]
    (m : Map α β) (k : α) (h : k ∉ m.tree.root.keys) :
    m.Get k = none ∧ (m.Find k).node = none ∧ (m.Find k).IsValid = false := by
  have hf : m.tree.FindNode k = none := findNode_eq_none h
  refine ⟨get_eq_none_of_not_mem h, hf, ?_⟩
  show (m.tree.FindNode k).isSome = false
  rw [hf]
  rfl

theorem C7_witness :
    ((Map.New : Map Int Int).Insert 1 1).Get 3 = none
      ∧ (((Map.New : Map Int Int).Insert 1 1).Find 3).node = none
      ∧ (((Map.New : Map Int Int).Insert 1 1).Find 3).IsValid = false :=
  C7_absent_key_lookups_return_absent ((Map.New : Map Int Int).Insert 1 1) 3
    (by decide)

/-- C8: for every map state satisfying the ordering invariant, `Insert(k, v)`
increases `Size()` by exactly one when `k` is absent before the call, and
leaves `Size()` unchanged when `k` is already present — and on that
value-update path no node is allocated (the node count is unchanged). -/
theorem C8_insert_size_change {α β : Type} [LinearOrder α]
    (m : Map α β) (k : α) (v : β) (ho : m.tree.root.Ordered) :
    (k ∉ m.tree.root.keys → (m.Insert k v).Size = m.Size + 1)
      ∧ (k ∈ m.tree.root.keys → (m.Insert k v).Size = m.Size
          ∧ (m.Insert k v).tree.root.count = m.tree.root.count) := by
  constructor
  · intro hk
    rw [insert_absent k v hk]
    rfl
  · intro hk
    rcases mem_keysOf hk with ⟨w, hw⟩
    obtain ⟨hi, hsz⟩ := insert_present v ho hw
    refine ⟨hsz, ?_⟩
    rw [count_eq_length_inorder, count_eq_length_inorder, hi, List.length_map]

theorem C8_witness :
    (3 ∉ ((Map.New : Map Int Int).Insert 1 1).tree.root.keys
        → (((Map.New : Map Int Int).Insert 1 1).Insert 3 9).Size
            = ((Map.New : Map Int Int).Insert 1 1).Size + 1)
      ∧ (3 ∈ ((Map.New : Map Int Int).Insert 1 1).tree.root.keys
        → (((Map.New : Map Int Int).Insert 1 1).Insert 3 9).Size
            = ((Map.New : Map Int Int).Insert 1 1).Size
          ∧ (((Map.New : Map Int Int).Insert 1 1).Insert 3 9).tree.root.count
            = ((Map.New : Map Int Int).Insert 1 1).tree.root.count) :=
  C8_insert_size_change ((Map.New : Map Int Int).Insert 1 1) 3 9 (by decide)

/-- C9: for every map state and every key `k` not present in it, `Erase(k)`
is a no-op: the search finds no node, no deletion is performed, and the
resulting map — contents and `Size()` alike — is exactly the map before the
call. -/
theorem C9_erase_absent_is_noop {α β : Type} [LinearOrder α]
    (m : Map α β) (k : α) (h : k ∉ m.tree.root.keys) :
    m.Erase k = m :=
  erase_absent h

theorem C9_witness :
    ((Map.New : Map Int Int).Insert 1 1).Erase 7 = (Map.New : Map Int Int).Insert 1 1 :=
  C9_erase_absent_is_noop ((Map.New : Map Int Int).Insert 1 1) 7 (by decide)

/-- C10: for every map state, calling `EraseIter` with an iterator whose
dynamic type is not `*MapIterator` leaves the map unchanged: the type
assertion fails, so the guarded `Delete` call never runs — a no-op rather
than an error or a deletion. -/
theorem C10_eraseIter_foreign_is_noop {α β : Type} [LinearOrder α]
    (m : Map α β) :
    m.EraseIter ConstKvIterator.foreign = m := rfl

end Gostl
